import Mathlib

/-!
Verification of the parallel keyword-search engine (`multiprocess.py`).

The embedding mirrors the Python source:
* Python dicts are insertion-ordered association lists (`dictInsert`
  replaces the first matching key or appends at the end, exactly like
  `d[k] = v`; `dictSetdefault` mirrors `d.setdefault(k, v)`;
  `dictFind?`/`dictGet` mirror `k in d` / `d.get(k, default)`).
* `build_shift_table` mirrors the function of the same name, with the
  `pattern[-1]` access on an empty pattern modelled as `Option` failure
  (Python raises `IndexError` there).
* `chunksOf` mirrors `read_file_in_chunks`: successive `f.read(buffer_size)`
  slices of the content, stopping at the first empty read.
* `bmLoop`/`bmScanChunk` mirror the `while i <= len(chunk) - len(pattern)`
  loop of `bm_search` on one chunk; the loop is fuelled with
  `chunk.length + 1` steps, which is enough because every shift taken from a
  real shift table is at least 1 (`bmLoop_fuel_irrelevant` below justifies
  the fuel bound).
* `bm_searchGo`/`bm_search` mirror the per-pattern chunk loop of `bm_search`,
  including the fact that the `break` on a match only leaves the inner
  `while`, so the next chunk is still scanned.
* `search_keywords_in_files` mirrors the worker: any per-file exception
  (missing file, empty pattern) is caught, the file is skipped, and the
  accumulated result is still produced.
* `slices`/`multiprocessing_search` mirror the coordinator's partitioning
  and the merge of the queued worker results.
File systems are modelled as functions `String → Option (List Char)`
(`none` = the file cannot be opened or read).
-/

/-- A Python dict with `Char` keys, as an insertion-ordered association list. -/
abbrev ShiftTable := List (Char × Nat)

/-- The result dict of `bm_search` / the workers: keyword → list of file paths. -/
abbrev SearchResult := List (List Char × List String)

/-- Lookup mirroring `k in d` / `d[k]` on a Python dict. -/
def dictFind? {α β : Type} [DecidableEq α] : List (α × β) → α → Option β
  | [], _ => none
  | p :: rest, k => if p.1 = k then some p.2 else dictFind? rest k

/-- Assignment `d[k] = v` on a Python dict: replace the entry if the key is
present, otherwise append a new entry at the end. -/
def dictInsert {α β : Type} [DecidableEq α] : List (α × β) → α → β → List (α × β)
  | [], k, v => [(k, v)]
  | p :: rest, k, v => if p.1 = k then (k, v) :: rest else p :: dictInsert rest k v

/-- `d.setdefault(k, v)`: insert only when the key is absent. -/
def dictSetdefault {α β : Type} [DecidableEq α] : List (α × β) → α → β → List (α × β)
  | [], k, v => [(k, v)]
  | p :: rest, k, v => if p.1 = k then p :: rest else p :: dictSetdefault rest k v

/-- `d.get(k, default)`. -/
def dictGet {α β : Type} [DecidableEq α] (d : List (α × β)) (k : α) (default : β) : β :=
  (dictFind? d k).getD default

/-- `d[k].append(x)` on a `defaultdict(list)`: a missing key starts from `[]`. -/
def resultAppend {α β : Type} [DecidableEq α] :
    List (α × List β) → α → β → List (α × List β)
  | [], k, x => [(k, [x])]
  | p :: rest, k, x =>
    if p.1 = k then (p.1, p.2 ++ [x]) :: rest else p :: resultAppend rest k x

/-- `d[k].extend(xs)` on a `defaultdict(list)`. -/
def resultExtend {α β : Type} [DecidableEq α] :
    List (α × List β) → α → List β → List (α × List β)
  | [], k, xs => [(k, xs)]
  | p :: rest, k, xs =>
    if p.1 = k then (p.1, p.2 ++ xs) :: rest else p :: resultExtend rest k xs

/-- `for keyword, paths in d.items(): acc[keyword].extend(paths)` — the merge
step used by both the worker and the coordinator. -/
def mergeResult {α β : Type} [DecidableEq α]
    (acc d : List (α × List β)) : List (α × List β) :=
  d.foldl (fun a p => resultExtend a p.1 p.2) acc

/-- The index of the right-most occurrence of `c` in `xs`, if any. -/
def lastIdxOf? : List Char → Char → Option Nat
  | [], _ => none
  | x :: xs, c =>
    match lastIdxOf? xs c with
    | some k => some (k + 1)
    | none => if x = c then some 0 else none

/-- The `for index, char in enumerate(pattern[:-1])` loop of
`build_shift_table`: `table[char] = length - index - 1`. -/
def shiftLoop (length : Nat) : List Char → Nat → ShiftTable → ShiftTable
  | [], _, t => t
  | c :: rest, idx, t => shiftLoop length rest (idx + 1) (dictInsert t c (length - idx - 1))

/-- `build_shift_table(pattern)`. On the empty pattern the source evaluates
`pattern[-1]`, which raises `IndexError`; that failure is modelled as `none`. -/
def build_shift_table (pattern : List Char) : Option ShiftTable :=
  match pattern.getLast? with
  | none => none
  | some last =>
    some (dictSetdefault (shiftLoop pattern.length pattern.dropLast 0 []) last pattern.length)

/-- The read loop of `read_file_in_chunks`, bounded by a fuel argument so the
recursion is structural: each `f.read(buffer_size)` removes `buffer_size`
characters, so for a positive buffer the loop runs at most
`content.length + 1` times (`chunksOfFuel_congr` below shows any fuel past
that bound gives the same chunks). -/
def chunksOfFuel (b : Nat) : Nat → List Char → List (List Char)
  | 0, _ => []
  | fuel + 1, content =>
    if content = [] then []
    else content.take b :: chunksOfFuel b fuel (content.drop b)

/-- `read_file_in_chunks`: the sequence of `f.read(buffer_size)` results until
the first empty read. `f.read(0)` returns the empty string, so a zero buffer
yields no chunks at all. -/
def chunksOf (b : Nat) (content : List Char) : List (List Char) :=
  if b = 0 then [] else chunksOfFuel b (content.length + 1) content

/-- The inner `while j >= 0 and chunk[i + j] == pattern[j]` loop: compares the
pattern right-to-left against the window at `i`; `true` means `j` ran below 0,
i.e. a full match. The argument counts the positions still to compare. -/
def windowCheck (chunk pattern : List Char) (i : Nat) : Nat → Bool
  | 0 => true
  | j + 1 =>
    if chunk.getD (i + j) ' ' = pattern.getD j ' ' then windowCheck chunk pattern i j
    else false

/-- `shift_table.get(chunk[i + len(pattern) - 1], len(pattern))`. -/
def bmShift (T : ShiftTable) (chunk pattern : List Char) (i : Nat) : Nat :=
  dictGet T (chunk.getD (i + pattern.length - 1) ' ') pattern.length

/-- The `while i <= len(chunk) - len(pattern)` loop of `bm_search` on one
chunk, fuelled: returns `true` exactly when the source appends to
`result_dict[pattern]` (and breaks) for this chunk. -/
def bmLoop (chunk pattern : List Char) (T : ShiftTable) : Nat → Nat → Bool
  | 0, _ => false
  | fuel + 1, i =>
    if i + pattern.length ≤ chunk.length then
      if windowCheck chunk pattern i pattern.length then true
      else bmLoop chunk pattern T fuel (i + bmShift T chunk pattern i)
    else false

/-- Scan of one chunk, starting at `i = 0`, with enough fuel for any shift
table whose shifts are all positive (every real shift table is). -/
def bmScanChunk (chunk pattern : List Char) (T : ShiftTable) : Bool :=
  bmLoop chunk pattern T (chunk.length + 1) 0

/-- The `for chunk in read_file_in_chunks(...)` loop for one pattern: each
matching chunk appends `str(file)` once (the `break` leaves only the inner
`while`, so scanning resumes with the next chunk). -/
def bmPatternPass (d : SearchResult) (content pattern : List Char) (T : ShiftTable)
    (b : Nat) (file : String) : SearchResult :=
  (chunksOf b content).foldl
    (fun acc ch => if bmScanChunk ch pattern T then resultAppend acc pattern file else acc) d

/-- The `for pattern in patterns_list` loop of `bm_search` over an already
read file content; `none` models the `IndexError` raised by
`build_shift_table` on an empty pattern. -/
def bm_searchGo (content : List Char) (b : Nat) (file : String) :
    List (List Char) → SearchResult → Option SearchResult
  | [], d => some d
  | p :: rest, d =>
    match build_shift_table p with
    | none => none
    | some T => bm_searchGo content b file rest (bmPatternPass d content p T b file)

/-- `bm_search(file, patterns_list, buffer_size)`: opening a missing or
unreadable file raises, modelled as `none`. -/
def bm_search (fs : String → Option (List Char)) (file : String)
    (patterns : List (List Char)) (b : Nat) : Option SearchResult :=
  (fs file).bind (fun content => bm_searchGo content b file patterns [])

/-- `search_keywords_in_files(files, keywords, ...)`: the worker. The
`try/except` around each file catches `FileNotFoundError` and every other
exception, skips the file, and keeps the results accumulated so far; the
worker always puts its accumulated dict on the queue. -/
def search_keywords_in_files (fs : String → Option (List Char)) (files : List String)
    (keywords : List (List Char)) (b : Nat) : SearchResult :=
  files.foldl
    (fun results file =>
      match bm_search fs file keywords b with
      | none => results
      | some r => mergeResult results r) []

/-- The coordinator's partitioning: `chunk_size = len(files) // num_processes`;
slice `i` is `files[i*chunk_size : (i+1)*chunk_size]` except the last slice,
which is `files[(n-1)*chunk_size : len(files)]`. -/
def slices (files : List String) (n : Nat) : List (List String) :=
  (List.range n).map (fun i =>
    let cs := files.length / n
    let start := i * cs
    let stop := if i ≠ n - 1 then (i + 1) * cs else files.length
    (files.drop start).take (stop - start))

/-- One `Process` is created and started per iteration of
`for i in range(num_processes)`, i.e. one per slice, regardless of whether the
slice is empty. -/
def spawnedWorkers (files : List String) (n : Nat) : Nat :=
  (slices files n).length

/-- `multiprocessing_search`: run one worker per slice and merge every queued
partial result into the final dict. -/
def multiprocessing_search (fs : String → Option (List Char)) (files : List String)
    (keywords : List (List Char)) (n : Nat) (b : Nat) : SearchResult :=
  ((slices files n).map (fun s => search_keywords_in_files fs s keywords b)).foldl
    mergeResult []

/-- The pattern occurs in the chunk at offset `i` (the indexing of the source:
`chunk[i + j] == pattern[j]` for every pattern position `j`). -/
def occursAt (chunk pattern : List Char) (i : Nat) : Prop :=
  i + pattern.length ≤ chunk.length ∧
    ∀ j < pattern.length, chunk.getD (i + j) ' ' = pattern.getD j ' '

/-- The number of chunks of the file content in which the scan finds the
pattern: exactly the number of `append` calls executed for this pattern. -/
def matchingChunks (content pattern : List Char) (T : ShiftTable) (b : Nat) : Nat :=
  ((chunksOf b content).filter (fun ch => bmScanChunk ch pattern T)).length

/-! ### Dictionary lemmas -/

theorem dictFind?_dictInsert {α β : Type} [DecidableEq α]
    (d : List (α × β)) (k : α) (v : β) (c : α) :
    dictFind? (dictInsert d k v) c = if k = c then some v else dictFind? d c := by
  induction d with
  | nil =>
    by_cases h : k = c <;> simp [dictInsert, dictFind?, h]
  | cons p rest ih =>
    by_cases hp : p.1 = k
    · subst hp
      simp only [dictInsert, if_pos rfl, dictFind?]
      by_cases hc : p.1 = c <;> simp [hc]
    · simp only [dictInsert, hp, if_false, dictFind?]
      by_cases hc : p.1 = c
      · have hkc : ¬ k = c := fun h => hp (by rw [h, hc])
        simp [hc, hkc]
      · simp [hc, ih]

theorem dictFind?_dictSetdefault {α β : Type} [DecidableEq α]
    (d : List (α × β)) (k : α) (v : β) (c : α) :
    dictFind? (dictSetdefault d k v) c =
      match dictFind? d c with
      | some w => some w
      | none => if k = c then some v else none := by
  induction d with
  | nil =>
    by_cases h : k = c <;> simp [dictSetdefault, dictFind?, h]
  | cons p rest ih =>
    by_cases hp : p.1 = k
    · subst hp
      simp only [dictSetdefault, if_pos rfl, dictFind?]
      by_cases hc : p.1 = c
      · simp [hc]
      · simp only [hc, if_false]
        cases dictFind? rest c <;> simp [hc]
    · simp only [dictSetdefault, hp, if_false, dictFind?]
      by_cases hc : p.1 = c
      · simp [hc]
      · simp [hc, ih]

/-! ### Right-most index lemmas -/

theorem lastIdxOf?_bound {xs : List Char} {c : Char} {k : Nat}
    (h : lastIdxOf? xs c = some k) : k < xs.length ∧ xs.getD k ' ' = c := by
  induction xs generalizing k with
  | nil => simp [lastIdxOf?] at h
  | cons x rest ih =>
    simp only [lastIdxOf?] at h
    cases hr : lastIdxOf? rest c with
    | some m =>
      rw [hr] at h
      obtain ⟨hm, hg⟩ := ih hr
      cases h
      exact ⟨by simpa using Nat.succ_lt_succ hm, by simpa using hg⟩
    | none =>
      rw [hr] at h
      by_cases hx : x = c
      · simp [hx] at h
        subst h
        exact ⟨by simp, by simpa using hx⟩
      · simp [hx] at h

theorem lastIdxOf?_ge {xs : List Char} {c : Char} {k : Nat}
    (hk : k < xs.length) (hg : xs.getD k ' ' = c) :
    ∃ j, lastIdxOf? xs c = some j ∧ k ≤ j := by
  induction xs generalizing k with
  | nil => simp at hk
  | cons x rest ih =>
    cases k with
    | zero =>
      simp only [List.getD_cons_zero] at hg
      cases hr : lastIdxOf? rest c with
      | some m => exact ⟨m + 1, by simp [lastIdxOf?, hr], Nat.zero_le _⟩
      | none => exact ⟨0, by simp [lastIdxOf?, hr, hg], Nat.le_refl _⟩
    | succ k' =>
      have hk' : k' < rest.length := by simpa using Nat.lt_of_succ_lt_succ hk
      have hg' : rest.getD k' ' ' = c := by simpa using hg
      obtain ⟨j, hj, hle⟩ := ih hk' hg'
      exact ⟨j + 1, by simp [lastIdxOf?, hj], Nat.succ_le_succ hle⟩

theorem lastIdxOf?_isSome_iff {xs : List Char} {c : Char} :
    (lastIdxOf? xs c).isSome ↔ c ∈ xs := by
  induction xs with
  | nil => simp [lastIdxOf?]
  | cons x rest ih =>
    simp only [lastIdxOf?, List.mem_cons]
    cases hr : lastIdxOf? rest c with
    | some m =>
      have : c ∈ rest := by rw [← ih, hr]; rfl
      simp [this]
    | none =>
      have : ¬ c ∈ rest := by rw [← ih, hr]; simp
      by_cases hx : x = c <;> simp [hx, this]
      exact fun h => hx h.symm

theorem lastIdxOf?_rightmost {xs : List Char} {c : Char} {k : Nat}
    (hk : k < xs.length) (hg : xs.getD k ' ' = c)
    (hmax : ∀ j, k < j → j < xs.length → xs.getD j ' ' ≠ c) :
    lastIdxOf? xs c = some k := by
  obtain ⟨j, hj, hle⟩ := lastIdxOf?_ge hk hg
  obtain ⟨hjlen, hjg⟩ := lastIdxOf?_bound hj
  rcases Nat.lt_or_ge k j with hlt | hge
  · exact absurd hjg (hmax j hlt hjlen)
  · have : j = k := Nat.le_antisymm (Nat.le_of_lt_succ (Nat.lt_succ_of_le hge)) hle
    rwa [this] at hj

/-! ### Characterization of the shift table -/

theorem shiftLoop_find (L : Nat) :
    ∀ (xs : List Char) (idx : Nat) (t : ShiftTable) (c : Char),
      dictFind? (shiftLoop L xs idx t) c =
        match lastIdxOf? xs c with
        | some k => some (L - (idx + k) - 1)
        | none => dictFind? t c := by
  intro xs
  induction xs with
  | nil => intro idx t c; simp [shiftLoop, lastIdxOf?]
  | cons x rest ih =>
    intro idx t c
    simp only [shiftLoop, lastIdxOf?]
    rw [ih]
    cases hr : lastIdxOf? rest c with
    | some k =>
      simp only []
      have : idx + 1 + k = idx + (k + 1) := by omega
      rw [this]
    | none =>
      simp only []
      rw [dictFind?_dictInsert]
      by_cases hx : x = c <;> simp [hx]

theorem build_shift_table_find {p : List Char} {T : ShiftTable}
    (hT : build_shift_table p = some T) (c : Char) :
    dictFind? T c =
      match lastIdxOf? p.dropLast c with
      | some k => some (p.length - k - 1)
      | none => if p.getLast? = some c then some p.length else none := by
  cases hl : p.getLast? with
  | none => simp [build_shift_table, hl] at hT
  | some last =>
    simp only [build_shift_table, hl, Option.some_inj] at hT
    subst hT
    rw [dictFind?_dictSetdefault, shiftLoop_find]
    cases hk : lastIdxOf? p.dropLast c with
    | some k => simp
    | none =>
      simp only [dictFind?, hl]
      by_cases hc : last = c
      · simp [hc]
      · have : ¬ (some last = some c) := fun h => hc (Option.some_inj.mp h)
        simp [hc, this]

theorem build_shift_table_isSome (p : List Char) :
    (build_shift_table p).isSome ↔ p ≠ [] := by
  constructor
  · intro h hnil
    subst hnil
    simp [build_shift_table] at h
  · intro h
    obtain ⟨a, ha⟩ := Option.isSome_iff_exists.mp (List.getLast?_isSome.mpr h)
    simp [build_shift_table, ha]

theorem build_shift_table_ne_nil {p : List Char} {T : ShiftTable}
    (hT : build_shift_table p = some T) : p ≠ [] := by
  have : (build_shift_table p).isSome := by rw [hT]; rfl
  exact (build_shift_table_isSome p).mp this

theorem shift_value_bounds {p : List Char} {T : ShiftTable}
    (hT : build_shift_table p = some T) (c : Char) (v : Nat)
    (h : dictFind? T c = some v) : 1 ≤ v ∧ v ≤ p.length := by
  have hne : p ≠ [] := build_shift_table_ne_nil hT
  have hlen : 0 < p.length := List.length_pos.mpr hne
  have hdl : p.dropLast.length = p.length - 1 := List.length_dropLast p
  rw [build_shift_table_find hT] at h
  cases hk : lastIdxOf? p.dropLast c with
  | some k =>
    rw [hk] at h
    simp only [Option.some_inj] at h
    have hb := (lastIdxOf?_bound hk).1
    omega
  | none =>
    rw [hk] at h
    by_cases hc : p.getLast? = some c
    · simp only [hc, if_pos] at h
      simp only [Option.some_inj] at h
      omega
    · simp [hc] at h

theorem dictGet_shift_pos {p : List Char} {T : ShiftTable}
    (hT : build_shift_table p = some T) (c : Char) :
    1 ≤ dictGet T c p.length ∧ dictGet T c p.length ≤ p.length := by
  have hne : p ≠ [] := build_shift_table_ne_nil hT
  have hlen : 0 < p.length := List.length_pos.mpr hne
  unfold dictGet
  cases hv : dictFind? T c with
  | none => simpa using hlen
  | some v =>
    have := shift_value_bounds hT c v hv
    simpa using this

theorem dictGet_shift_le_of_occ {p : List Char} {T : ShiftTable}
    (hT : build_shift_table p = some T) {k : Nat} {c : Char}
    (hk : k < p.dropLast.length) (hg : p.dropLast.getD k ' ' = c) :
    dictGet T c p.length ≤ p.length - 1 - k := by
  obtain ⟨j, hj, hle⟩ := lastIdxOf?_ge hk hg
  have hfind := build_shift_table_find hT c
  rw [hj] at hfind
  have hjb := (lastIdxOf?_bound hj).1
  unfold dictGet
  rw [hfind]
  simp only [Option.getD_some]
  omega

/-! ### The right-to-left window comparison -/

theorem windowCheck_iff (chunk pattern : List Char) (i : Nat) :
    ∀ k, windowCheck chunk pattern i k = true ↔
      ∀ j < k, chunk.getD (i + j) ' ' = pattern.getD j ' ' := by
  intro k
  induction k with
  | zero => simp [windowCheck]
  | succ k ih =>
    simp only [windowCheck]
    by_cases h : chunk.getD (i + k) ' ' = pattern.getD k ' '
    · rw [if_pos h, ih]
      constructor
      · intro hall j hj
        rcases Nat.lt_succ_iff_lt_or_eq.mp hj with h1 | h1
        · exact hall j h1
        · subst h1; exact h
      · intro hall j hj
        exact hall j (Nat.lt_succ_of_lt hj)
    · rw [if_neg h]
      constructor
      · intro hfalse; exact absurd hfalse (by simp)
      · intro hall; exact absurd (hall k (Nat.lt_succ_self k)) h

/-! ### Soundness and completeness of the chunk scan -/

theorem bmLoop_sound (chunk pattern : List Char) (T : ShiftTable) :
    ∀ fuel i, bmLoop chunk pattern T fuel i = true → ∃ m, occursAt chunk pattern m := by
  intro fuel
  induction fuel with
  | zero => intro i h; simp [bmLoop] at h
  | succ fuel ih =>
    intro i h
    simp only [bmLoop] at h
    by_cases hb : i + pattern.length ≤ chunk.length
    · rw [if_pos hb] at h
      by_cases hw : windowCheck chunk pattern i pattern.length = true
      · exact ⟨i, hb, (windowCheck_iff chunk pattern i pattern.length).mp hw⟩
      · rw [if_neg hw] at h
        exact ih _ h
    · rw [if_neg hb] at h
      exact absurd h (by simp)

theorem getD_dropLast {l : List Char} {k : Nat} (hk : k < l.length - 1) :
    l.dropLast.getD k ' ' = l.getD k ' ' := by
  have h1 : k < l.dropLast.length := by
    rw [List.length_dropLast]; exact hk
  have h2 : k < l.length := by omega
  rw [List.getD_eq_getElem _ _ h1, List.getD_eq_getElem _ _ h2]
  exact List.getElem_dropLast l k h1

theorem bmLoop_complete {p : List Char} {T : ShiftTable}
    (hT : build_shift_table p = some T) (chunk : List Char) {m : Nat}
    (hm : occursAt chunk p m) :
    ∀ fuel i, i ≤ m → chunk.length + 1 ≤ fuel + i →
      bmLoop chunk p T fuel i = true := by
  obtain ⟨hmb, hmg⟩ := hm
  have hne : p ≠ [] := build_shift_table_ne_nil hT
  have hlen : 0 < p.length := List.length_pos.mpr hne
  intro fuel
  induction fuel with
  | zero =>
    intro i him hfuel
    omega
  | succ fuel ih =>
    intro i him hfuel
    have hb : i + p.length ≤ chunk.length := by omega
    simp only [bmLoop, if_pos hb]
    by_cases hw : windowCheck chunk p i p.length = true
    · rw [if_pos hw]
    · rw [if_neg hw]
      -- the window at `m` matches, so `i < m`
      have hwm : windowCheck chunk p m p.length = true :=
        (windowCheck_iff chunk p m p.length).mpr hmg
      have him' : i < m := by
        rcases Nat.lt_or_ge i m with h | h
        · exact h
        · have : i = m := by omega
          subst this
          exact absurd hwm hw
      -- the shift never jumps past `m`
      have hshift_pos : 1 ≤ bmShift T chunk p i := (dictGet_shift_pos hT _).1
      have hshift_le : i + bmShift T chunk p i ≤ m := by
        rcases Nat.lt_or_ge m (i + p.length) with hcase | hcase
        · -- the window's last character is part of the occurrence at m
          set c := chunk.getD (i + p.length - 1) ' ' with hc
          have hk : i + p.length - 1 - m < p.dropLast.length := by
            rw [List.length_dropLast]; omega
          have hg : p.dropLast.getD (i + p.length - 1 - m) ' ' = c := by
            rw [getD_dropLast (by omega)]
            have := hmg (i + p.length - 1 - m) (by omega)
            rw [← this]
            have : m + (i + p.length - 1 - m) = i + p.length - 1 := by omega
            rw [this]
          have := dictGet_shift_le_of_occ hT hk hg
          have hshift : bmShift T chunk p i ≤ p.length - 1 - (i + p.length - 1 - m) := by
            unfold bmShift
            exact this
          omega
        · have := (dictGet_shift_pos hT (chunk.getD (i + p.length - 1) ' ')).2
          unfold bmShift
          omega
      exact ih (i + bmShift T chunk p i) hshift_le (by omega)

theorem occursAt_append (s p t : List Char) : occursAt (s ++ p ++ t) p s.length := by
  constructor
  · simp only [List.length_append]
    omega
  · intro j hj
    have h1 : (s ++ (p ++ t)).getD (s.length + j) ' ' = (p ++ t).getD j ' ' := by
      rw [List.getD_eq_getElem?_getD, List.getD_eq_getElem?_getD,
        List.getElem?_append_right (by omega)]
      have hidx : s.length + j - s.length = j := by omega
      rw [hidx]
    have h2 : (p ++ t).getD j ' ' = p.getD j ' ' := by
      rw [List.getD_eq_getElem?_getD, List.getD_eq_getElem?_getD,
        List.getElem?_append_left hj]
    rw [List.append_assoc, h1, h2]

theorem occursAt_isInfix {chunk p : List Char} {i : Nat}
    (h : occursAt chunk p i) : List.IsInfix p chunk := by
  obtain ⟨hb, hg⟩ := h
  refine ⟨chunk.take i, chunk.drop (i + p.length), ?_⟩
  have hmid : (chunk.drop i).take p.length = p := by
    apply List.ext_getElem
    · rw [List.length_take, List.length_drop]
      omega
    · intro j h1 h2
      have hj : j < p.length := h2
      have hji : i + j < chunk.length := by omega
      have := hg j hj
      rw [List.getD_eq_getElem _ _ hji, List.getD_eq_getElem _ _ hj] at this
      rw [List.getElem_take, List.getElem_drop]
      exact this
  have hdd : chunk.drop (i + p.length) = (chunk.drop i).drop p.length := by
    rw [List.drop_drop, Nat.add_comm]
  have heq : chunk.take i ++ p ++ chunk.drop (i + p.length)
      = chunk.take i ++ (chunk.drop i).take p.length ++ (chunk.drop i).drop p.length := by
    rw [hmid, hdd]
  rw [heq, List.append_assoc, List.take_append_drop, List.take_append_drop]

theorem isInfix_occursAt {chunk p : List Char}
    (h : List.IsInfix p chunk) : ∃ i, occursAt chunk p i := by
  obtain ⟨s, t, hst⟩ := h
  exact ⟨s.length, hst ▸ occursAt_append s p t⟩

theorem bmLoop_false_of_out {chunk p : List Char} {T : ShiftTable} :
    ∀ fuel i, chunk.length < i → bmLoop chunk p T fuel i = false := by
  intro fuel i hi
  cases fuel with
  | zero => rfl
  | succ fuel =>
    have : ¬ (i + p.length ≤ chunk.length) := by omega
    simp [bmLoop, this]

/-- The loop of `bm_search` runs unbounded in the source; with any shift table
produced by `build_shift_table` every shift is positive, so any fuel of at
least `chunk.length + 1 - i` computes the loop's true result: the fuel in
`bmScanChunk` is irrelevant. -/
theorem bmLoop_fuel_irrelevant {p : List Char} {T : ShiftTable}
    (hT : build_shift_table p = some T) (chunk : List Char) :
    ∀ fuel₁ fuel₂ i, chunk.length + 1 ≤ fuel₁ + i → chunk.length + 1 ≤ fuel₂ + i →
      bmLoop chunk p T fuel₁ i = bmLoop chunk p T fuel₂ i := by
  intro fuel₁
  induction fuel₁ with
  | zero =>
    intro fuel₂ i h₁ h₂
    rw [bmLoop_false_of_out fuel₂ i (by omega)]
    rfl
  | succ fuel ih =>
    intro fuel₂ i h₁ h₂
    by_cases hi : chunk.length < i
    · rw [bmLoop_false_of_out _ i hi, bmLoop_false_of_out fuel₂ i hi]
    · cases fuel₂ with
      | zero => omega
      | succ fuel₂ =>
        simp only [bmLoop]
        by_cases hb : i + p.length ≤ chunk.length
        · rw [if_pos hb, if_pos hb]
          by_cases hw : windowCheck chunk p i p.length = true
          · rw [if_pos hw, if_pos hw]
          · rw [if_neg hw, if_neg hw]
            have hpos : 1 ≤ bmShift T chunk p i := (dictGet_shift_pos hT _).1
            exact ih fuel₂ (i + bmShift T chunk p i) (by omega) (by omega)
        · rw [if_neg hb, if_neg hb]

/-- C2: the right-to-left bad-character scan of one buffer (the inner loop of
`bm_search`, with the shift taken from the table entry of the character at the
window's last position, defaulting to the pattern length) reports a match if
and only if the pattern occurs as a contiguous substring of the buffer. -/
theorem bm_scan_iff_substring (chunk p : List Char) (T : ShiftTable)
    (hT : build_shift_table p = some T) :
    bmScanChunk chunk p T = true ↔ List.IsInfix p chunk := by
  constructor
  · intro h
    obtain ⟨m, hm⟩ := bmLoop_sound chunk p T _ _ h
    exact occursAt_isInfix hm
  · intro h
    obtain ⟨m, hm⟩ := isInfix_occursAt h
    exact bmLoop_complete hT chunk hm (chunk.length + 1) 0 (Nat.zero_le m) (by omega)

/-- Witness for C2 at a concrete buffer and pattern. -/
theorem bm_scan_iff_substring_witness :
    List.IsInfix ['a', 'b'] ['x', 'a', 'b'] := by
  have h := bm_scan_iff_substring ['x', 'a', 'b'] ['a', 'b'] [('a', 1), ('b', 2)] (by decide)
  exact h.mp (by decide)

/-! ### Result-dict lemmas -/

theorem dictFind?_resultAppend_self {α β : Type} [DecidableEq α]
    (d : List (α × List β)) (k : α) (x : β) :
    dictFind? (resultAppend d k x) k = some ((dictFind? d k).getD [] ++ [x]) := by
  induction d with
  | nil => simp [resultAppend, dictFind?]
  | cons p rest ih =>
    by_cases hp : p.1 = k
    · simp [resultAppend, dictFind?, hp]
    · simp [resultAppend, dictFind?, hp, ih]

theorem dictFind?_resultAppend_ne {α β : Type} [DecidableEq α]
    (d : List (α × List β)) (k : α) (x : β) (q : α) (h : q ≠ k) :
    dictFind? (resultAppend d k x) q = dictFind? d q := by
  induction d with
  | nil =>
    have : ¬ (k = q) := fun hk => h hk.symm
    simp [resultAppend, dictFind?, this]
  | cons p rest ih =>
    by_cases hp : p.1 = k
    · subst hp
      have hqp : ¬ (p.1 = q) := fun hq => h hq.symm
      simp [resultAppend, dictFind?, hqp]
    · by_cases hq : p.1 = q
      · simp [resultAppend, dictFind?, hp, hq, h]
      · simp [resultAppend, dictFind?, hp, hq, ih]

theorem dictFind?_resultExtend_self {α β : Type} [DecidableEq α]
    (d : List (α × List β)) (k : α) (xs : List β) :
    dictFind? (resultExtend d k xs) k = some ((dictFind? d k).getD [] ++ xs) := by
  induction d with
  | nil => simp [resultExtend, dictFind?]
  | cons p rest ih =>
    by_cases hp : p.1 = k
    · simp [resultExtend, dictFind?, hp]
    · simp [resultExtend, dictFind?, hp, ih]

theorem dictFind?_resultExtend_ne {α β : Type} [DecidableEq α]
    (d : List (α × List β)) (k : α) (xs : List β) (q : α) (h : q ≠ k) :
    dictFind? (resultExtend d k xs) q = dictFind? d q := by
  induction d with
  | nil =>
    have : ¬ (k = q) := fun hk => h hk.symm
    simp [resultExtend, dictFind?, this]
  | cons p rest ih =>
    by_cases hp : p.1 = k
    · subst hp
      simp only [resultExtend, if_pos rfl, dictFind?]
      have : ¬ (p.1 = q) := fun hk => h hk.symm
      simp [this]
    · by_cases hq : p.1 = q
      · simp [resultExtend, dictFind?, hp, hq, h]
      · simp [resultExtend, dictFind?, hp, hq, ih]

theorem dictFind?_eq_none_of_not_mem_keys {α β : Type} [DecidableEq α]
    (d : List (α × β)) (q : α) (h : q ∉ d.map Prod.fst) : dictFind? d q = none := by
  induction d with
  | nil => rfl
  | cons p rest ih =>
    simp only [List.map_cons, List.mem_cons] at h
    push_neg at h
    have : ¬ (p.1 = q) := fun hq => h.1 hq.symm
    simp [dictFind?, this, ih h.2]


theorem bmPatternPass_find_self (p : List Char) (T : ShiftTable) (file : String) :
    ∀ (chunks : List (List Char)) (d : SearchResult),
      (dictFind? (chunks.foldl
          (fun acc ch => if bmScanChunk ch p T then resultAppend acc p file else acc) d) p).getD []
        = (dictFind? d p).getD []
            ++ List.replicate (chunks.filter (fun ch => bmScanChunk ch p T)).length file := by
  intro chunks
  induction chunks with
  | nil => intro d; simp
  | cons ch rest ih =>
    intro d
    by_cases hs : bmScanChunk ch p T = true
    · simp only [List.foldl_cons, List.filter_cons, hs, if_pos, List.length_cons,
        List.replicate_succ]
      rw [ih (resultAppend d p file), dictFind?_resultAppend_self]
      simp [List.append_assoc]
    · simp only [List.foldl_cons, List.filter_cons, hs, Bool.false_eq_true, if_false]
      exact ih d

theorem bmPatternPass_isSome_self (p : List Char) (T : ShiftTable) (file : String) :
    ∀ (chunks : List (List Char)) (d : SearchResult),
      (dictFind? (chunks.foldl
          (fun acc ch => if bmScanChunk ch p T then resultAppend acc p file else acc) d) p).isSome
        ↔ (dictFind? d p).isSome ∨ 0 < (chunks.filter (fun ch => bmScanChunk ch p T)).length := by
  intro chunks
  induction chunks with
  | nil => intro d; simp
  | cons ch rest ih =>
    intro d
    by_cases hs : bmScanChunk ch p T = true
    · simp only [List.foldl_cons, List.filter_cons, hs, if_pos, List.length_cons]
      rw [ih (resultAppend d p file)]
      have : (dictFind? (resultAppend d p file) p).isSome := by
        rw [dictFind?_resultAppend_self]
        rfl
      simp [this]
    · simp only [List.foldl_cons, List.filter_cons, hs, Bool.false_eq_true, if_false]
      exact ih d

theorem bmPatternPass_find_ne (p : List Char) (T : ShiftTable)
    (file : String) (q : List Char) (hq : q ≠ p) :
    ∀ (chunks : List (List Char)) (d : SearchResult),
      dictFind? (chunks.foldl
          (fun acc ch => if bmScanChunk ch p T then resultAppend acc p file else acc) d) q
        = dictFind? d q := by
  intro chunks
  induction chunks with
  | nil => intro d; rfl
  | cons ch rest ih =>
    intro d
    by_cases hs : bmScanChunk ch p T = true
    · simp only [List.foldl_cons, hs, if_pos]
      rw [ih (resultAppend d p file), dictFind?_resultAppend_ne _ _ _ _ hq]
    · simp only [List.foldl_cons]
      rw [if_neg hs]
      exact ih d

theorem bmPatternPass_entries (d : SearchResult) (content p : List Char)
    (T : ShiftTable) (b : Nat) (file : String) :
    (dictFind? (bmPatternPass d content p T b file) p).getD []
      = (dictFind? d p).getD [] ++ List.replicate (matchingChunks content p T b) file :=
  bmPatternPass_find_self p T file (chunksOf b content) d

theorem bmPatternPass_isSome (d : SearchResult) (content p : List Char)
    (T : ShiftTable) (b : Nat) (file : String) :
    (dictFind? (bmPatternPass d content p T b file) p).isSome
      ↔ (dictFind? d p).isSome ∨ 0 < matchingChunks content p T b :=
  bmPatternPass_isSome_self p T file (chunksOf b content) d

theorem bmPatternPass_untouched (d : SearchResult) (content p : List Char)
    (T : ShiftTable) (b : Nat) (file : String) (q : List Char) (hq : q ≠ p) :
    dictFind? (bmPatternPass d content p T b file) q = dictFind? d q :=
  bmPatternPass_find_ne p T file q hq (chunksOf b content) d

/-! ### The per-pattern loop of bm_search -/

theorem bm_searchGo_untouched (content : List Char) (b : Nat) (file : String) :
    ∀ (patterns : List (List Char)) (d0 d : SearchResult) (q : List Char),
      q ∉ patterns → bm_searchGo content b file patterns d0 = some d →
      dictFind? d q = dictFind? d0 q := by
  intro patterns
  induction patterns with
  | nil =>
    intro d0 d q _ h
    simp only [bm_searchGo, Option.some_inj] at h
    rw [h]
  | cons p rest ih =>
    intro d0 d q hq h
    simp only [List.mem_cons] at hq
    push_neg at hq
    simp only [bm_searchGo] at h
    cases hT : build_shift_table p with
    | none => rw [hT] at h; exact absurd h (by simp)
    | some T =>
      rw [hT] at h
      rw [ih _ d q hq.2 h, bmPatternPass_untouched _ _ _ _ _ _ _ hq.1]

theorem bm_searchGo_find_mem (content : List Char) (b : Nat) (file : String) :
    ∀ (patterns : List (List Char)) (d0 d : SearchResult) (p : List Char),
      patterns.Nodup → p ∈ patterns →
      bm_searchGo content b file patterns d0 = some d →
      ∃ T, build_shift_table p = some T ∧
        (dictFind? d p).getD []
          = (dictFind? d0 p).getD [] ++ List.replicate (matchingChunks content p T b) file ∧
        ((dictFind? d p).isSome ↔
          (dictFind? d0 p).isSome ∨ 0 < matchingChunks content p T b) := by
  intro patterns
  induction patterns with
  | nil => intro d0 d p _ hp; exact absurd hp (by simp)
  | cons q rest ih =>
    intro d0 d p hnd hp h
    simp only [bm_searchGo] at h
    cases hT : build_shift_table q with
    | none => rw [hT] at h; exact absurd h (by simp)
    | some T =>
      rw [hT] at h
      rcases List.mem_cons.mp hp with hpq | hpr
      · subst hpq
        have hnotin : p ∉ rest := (List.nodup_cons.mp hnd).1
        have huntouched := bm_searchGo_untouched content b file rest _ d p hnotin h
        refine ⟨T, hT, ?_, ?_⟩
        · rw [huntouched, bmPatternPass_entries]
        · rw [huntouched, bmPatternPass_isSome]
      · have hqp : p ≠ q := by
          intro hh
          subst hh
          exact (List.nodup_cons.mp hnd).1 hpr
        obtain ⟨T', hT', he, hs⟩ := ih _ d p (List.nodup_cons.mp hnd).2 hpr h
        refine ⟨T', hT', ?_, ?_⟩
        · rw [he, bmPatternPass_untouched _ _ _ _ _ _ _ hqp]
        · rw [hs, bmPatternPass_untouched _ _ _ _ _ _ _ hqp]

theorem bm_searchGo_isSome (content : List Char) (b : Nat) (file : String) :
    ∀ (patterns : List (List Char)) (d0 : SearchResult),
      (bm_searchGo content b file patterns d0).isSome ↔ ∀ p ∈ patterns, p ≠ [] := by
  intro patterns
  induction patterns with
  | nil => intro d0; simp [bm_searchGo]
  | cons p rest ih =>
    intro d0
    simp only [bm_searchGo]
    cases hT : build_shift_table p with
    | none =>
      have hp : p = [] := by
        by_contra hne
        have := (build_shift_table_isSome p).mpr hne
        rw [hT] at this
        exact absurd this (by simp)
      simp [hp]
    | some T =>
      have hp : p ≠ [] := build_shift_table_ne_nil hT
      rw [ih]
      constructor
      · intro hall q hq
        rcases List.mem_cons.mp hq with h1 | h1
        · subst h1; exact hp
        · exact hall q h1
      · intro hall q hq
        exact hall q (List.mem_cons_of_mem p hq)

/-! ### Every appended value is the file identifier -/

theorem resultAppend_values {d : SearchResult} {f : String}
    (hd : ∀ q l, dictFind? d q = some l → ∀ x ∈ l, x = f) (k : List Char) :
    ∀ q l, dictFind? (resultAppend d k f) q = some l → ∀ x ∈ l, x = f := by
  intro q l hfind x hx
  by_cases hqk : q = k
  · subst hqk
    rw [dictFind?_resultAppend_self] at hfind
    rw [Option.some_inj] at hfind
    subst hfind
    rcases List.mem_append.mp hx with h | h
    · cases hdq : dictFind? d q with
      | none => rw [hdq] at h; simp at h
      | some l0 =>
        rw [hdq] at h
        exact hd q l0 hdq x h
    · simpa using h
  · rw [dictFind?_resultAppend_ne _ _ _ _ hqk] at hfind
    exact hd q l hfind x hx

theorem bmPatternPass_values {p : List Char} {T : ShiftTable} {f : String} :
    ∀ (chunks : List (List Char)) (d : SearchResult),
      (∀ q l, dictFind? d q = some l → ∀ x ∈ l, x = f) →
      ∀ q l, dictFind? (chunks.foldl
          (fun acc ch => if bmScanChunk ch p T then resultAppend acc p f else acc) d) q = some l →
        ∀ x ∈ l, x = f := by
  intro chunks
  induction chunks with
  | nil => intro d hd; exact hd
  | cons ch rest ih =>
    intro d hd
    simp only [List.foldl_cons]
    by_cases hs : bmScanChunk ch p T = true
    · rw [if_pos hs]
      exact ih _ (resultAppend_values hd p)
    · rw [if_neg hs]
      exact ih _ hd

theorem bm_searchGo_values (content : List Char) (b : Nat) (file : String) :
    ∀ (patterns : List (List Char)) (d0 d : SearchResult),
      (∀ q l, dictFind? d0 q = some l → ∀ x ∈ l, x = file) →
      bm_searchGo content b file patterns d0 = some d →
      ∀ q l, dictFind? d q = some l → ∀ x ∈ l, x = file := by
  intro patterns
  induction patterns with
  | nil =>
    intro d0 d h0 h
    simp only [bm_searchGo, Option.some_inj] at h
    rw [← h]
    exact h0
  | cons p rest ih =>
    intro d0 d h0 h
    simp only [bm_searchGo] at h
    cases hT : build_shift_table p with
    | none => rw [hT] at h; exact absurd h (by simp)
    | some T =>
      rw [hT] at h
      exact ih _ d (bmPatternPass_values (chunksOf b content) d0 h0) h

/-! ### Key lists stay duplicate-free -/

theorem resultAppend_keys_sub {α β : Type} [DecidableEq α]
    (d : List (α × List β)) (k : α) (x : β) :
    ∀ q, q ∈ (resultAppend d k x).map Prod.fst → q ∈ d.map Prod.fst ∨ q = k := by
  induction d with
  | nil => intro q hq; simp [resultAppend] at hq; exact Or.inr hq
  | cons p rest ih =>
    intro q hq
    simp only [List.map_cons, List.mem_cons]
    by_cases hp : p.1 = k
    · subst hp
      simp only [resultAppend, eq_self_iff_true, if_true, List.map_cons,
        List.mem_cons] at hq
      rcases hq with h | h
      · exact Or.inl (Or.inl h)
      · exact Or.inl (Or.inr h)
    · simp only [resultAppend, hp, if_false, List.map_cons, List.mem_cons] at hq
      rcases hq with h | h
      · exact Or.inl (Or.inl h)
      · rcases ih q h with h1 | h1
        · exact Or.inl (Or.inr h1)
        · exact Or.inr h1

theorem resultAppend_keys_nodup {α β : Type} [DecidableEq α]
    {d : List (α × List β)} (hd : (d.map Prod.fst).Nodup) (k : α) (x : β) :
    ((resultAppend d k x).map Prod.fst).Nodup := by
  induction d with
  | nil => simp [resultAppend]
  | cons p rest ih =>
    simp only [List.map_cons, List.nodup_cons] at hd
    by_cases hp : p.1 = k
    · subst hp
      simp only [resultAppend, eq_self_iff_true, if_true, List.map_cons, List.nodup_cons]
      exact hd
    · simp only [resultAppend, hp, if_false, List.map_cons, List.nodup_cons]
      constructor
      · intro hmem
        rcases resultAppend_keys_sub rest k x p.1 hmem with h | h
        · exact hd.1 h
        · exact hp h
      · exact ih hd.2

theorem bmPatternPass_keys_nodup {p : List Char} {T : ShiftTable} {f : String} :
    ∀ (chunks : List (List Char)) (d : SearchResult),
      (d.map Prod.fst).Nodup →
      ((chunks.foldl
          (fun acc ch => if bmScanChunk ch p T then resultAppend acc p f else acc) d).map
        Prod.fst).Nodup := by
  intro chunks
  induction chunks with
  | nil => intro d hd; exact hd
  | cons ch rest ih =>
    intro d hd
    simp only [List.foldl_cons]
    by_cases hs : bmScanChunk ch p T = true
    · rw [if_pos hs]
      exact ih _ (resultAppend_keys_nodup hd p f)
    · rw [if_neg hs]
      exact ih _ hd

theorem bm_searchGo_keys_nodup (content : List Char) (b : Nat) (file : String) :
    ∀ (patterns : List (List Char)) (d0 d : SearchResult),
      (d0.map Prod.fst).Nodup →
      bm_searchGo content b file patterns d0 = some d →
      (d.map Prod.fst).Nodup := by
  intro patterns
  induction patterns with
  | nil =>
    intro d0 d h0 h
    simp only [bm_searchGo, Option.some_inj] at h
    rw [← h]
    exact h0
  | cons p rest ih =>
    intro d0 d h0 h
    simp only [bm_searchGo] at h
    cases hT : build_shift_table p with
    | none => rw [hT] at h; exact absurd h (by simp)
    | some T =>
      rw [hT] at h
      exact ih _ d (bmPatternPass_keys_nodup (chunksOf b content) d0 h0) h

/-! ### The merge step -/

theorem dictFind?_mergeResult {α β : Type} [DecidableEq α] :
    ∀ (d acc : List (α × List β)), (d.map Prod.fst).Nodup → ∀ q,
      dictFind? (mergeResult acc d) q =
        match dictFind? d q with
        | some xs => some ((dictFind? acc q).getD [] ++ xs)
        | none => dictFind? acc q := by
  intro d
  induction d with
  | nil => intro acc _ q; rfl
  | cons e rest ih =>
    intro acc hnd q
    simp only [List.map_cons, List.nodup_cons] at hnd
    have hstep : mergeResult acc (e :: rest) = mergeResult (resultExtend acc e.1 e.2) rest := rfl
    rw [hstep, ih _ hnd.2 q]
    by_cases hq : q = e.1
    · subst hq
      have h1 : dictFind? rest e.1 = none := dictFind?_eq_none_of_not_mem_keys rest e.1 hnd.1
      rw [h1, dictFind?_resultExtend_self]
      simp [dictFind?]
    · have hne : ¬ (e.1 = q) := fun h => hq h.symm
      have h2 : dictFind? (e :: rest) q = dictFind? rest q := by
        simp [dictFind?, hne]
      rw [h2, dictFind?_resultExtend_ne _ _ _ _ hq]

/-! ### Claim theorems -/

theorem mem_iff_dropLast_or_last {p : List Char} {last : Char}
    (hl : p.getLast? = some last) (c : Char) :
    c ∈ p ↔ c ∈ p.dropLast ∨ c = last := by
  have hne : p ≠ [] := by
    intro hh
    rw [hh] at hl
    exact absurd hl (by simp)
  have hgl : p.getLast hne = last := by
    have := List.getLast?_eq_getLast p hne
    rw [hl] at this
    exact (Option.some_inj.mp this).symm
  conv_lhs => rw [← List.dropLast_append_getLast hne]
  rw [List.mem_append, List.mem_singleton, hgl]

/-- C4: for every non-empty pattern `P` of length `L`, `build_shift_table P`
has exactly the distinct characters of `P` as keys, every value lies in
`[1, L]`, each character occurring before the last position gets shift
`L - i - 1` for its right-most such index `i` (later occurrences overwrite
earlier ones), and the final character maps to `L` exactly when it does not
also occur earlier in `P`. -/
theorem build_shift_table_spec (p : List Char) (T : ShiftTable)
    (hT : build_shift_table p = some T) :
    (∀ c, (dictFind? T c).isSome ↔ c ∈ p) ∧
    (∀ c v, dictFind? T c = some v → 1 ≤ v ∧ v ≤ p.length) ∧
    (∀ k c, k < p.dropLast.length → p.dropLast.getD k ' ' = c →
      (∀ j, k < j → j < p.dropLast.length → p.dropLast.getD j ' ' ≠ c) →
      dictFind? T c = some (p.length - k - 1)) ∧
    (∀ lc, p.getLast? = some lc → (dictFind? T lc = some p.length ↔ lc ∉ p.dropLast)) := by
  have hne : p ≠ [] := build_shift_table_ne_nil hT
  have hlen : 0 < p.length := List.length_pos.mpr hne
  have hdl : p.dropLast.length = p.length - 1 := List.length_dropLast p
  obtain ⟨last, hl⟩ := Option.isSome_iff_exists.mp (List.getLast?_isSome.mpr hne)
  refine ⟨?_, shift_value_bounds hT, ?_, ?_⟩
  · intro c
    rw [build_shift_table_find hT c, mem_iff_dropLast_or_last hl c]
    cases hk : lastIdxOf? p.dropLast c with
    | some k =>
      have hmem : c ∈ p.dropLast := lastIdxOf?_isSome_iff.mp (by rw [hk]; rfl)
      simp [hmem]
    | none =>
      have hmem : c ∉ p.dropLast := by
        intro hc
        have := lastIdxOf?_isSome_iff.mpr hc
        rw [hk] at this
        exact absurd this (by simp)
      by_cases hc : c = last
      · subst hc
        simp [hmem, hl]
      · have : ¬ (p.getLast? = some c) := by
          rw [hl]
          intro hh
          exact hc (Option.some_inj.mp hh).symm
        simp [hmem, hc, this]
  · intro k c hk hg hmax
    have hfound := lastIdxOf?_rightmost hk hg hmax
    rw [build_shift_table_find hT c, hfound]
  · intro lc hlc
    rw [build_shift_table_find hT lc]
    cases hk : lastIdxOf? p.dropLast lc with
    | some k =>
      have hmem : lc ∈ p.dropLast := lastIdxOf?_isSome_iff.mp (by rw [hk]; rfl)
      have hkb := (lastIdxOf?_bound hk).1
      constructor
      · intro hh
        have : p.length - k - 1 = p.length := Option.some_inj.mp hh
        omega
      · intro hh
        exact absurd hmem hh
    | none =>
      have hmem : lc ∉ p.dropLast := by
        intro hc
        have := lastIdxOf?_isSome_iff.mpr hc
        rw [hk] at this
        exact absurd this (by simp)
      simp [hlc, hmem]

/-- Witness for C4 at the pattern "aba": the repeated character 'a' keeps the
shift of its right-most pre-final occurrence and the last character is not
remapped to the pattern length. -/
theorem build_shift_table_spec_witness :
    dictFind? [('a', 2), ('b', 1)] 'a' = some 2 ∧
    dictFind? [('a', 2), ('b', 1)] 'b' = some 1 := by
  have h := build_shift_table_spec ['a', 'b', 'a'] [('a', 2), ('b', 1)] (by decide)
  refine ⟨?_, ?_⟩
  · have := h.2.2.1 0 'a' (by decide) (by decide) ?_
    · exact this
    · intro j h1 h2
      have h2' : j < 2 := by simpa using h2
      have hj : j = 1 := by omega
      subst hj
      decide
  · have := h.2.2.1 1 'b' (by decide) (by decide) ?_
    · exact this
    · intro j h1 h2
      have h2' : j < 2 := by simpa using h2
      omega

theorem chunksOfFuel_length_le (b : Nat) :
    ∀ (fuel : Nat) (content : List Char), ∀ ch ∈ chunksOfFuel b fuel content, ch.length ≤ b := by
  intro fuel
  induction fuel with
  | zero => intro content ch hch; simp [chunksOfFuel] at hch
  | succ fuel ih =>
    intro content ch hch
    by_cases hc : content = []
    · simp [chunksOfFuel, hc] at hch
    · simp only [chunksOfFuel, hc, if_false] at hch
      rcases List.mem_cons.mp hch with h | h
      · subst h
        rw [List.length_take]
        omega
      · exact ih (content.drop b) ch h

theorem chunksOf_length_le (b : Nat) (content : List Char) :
    ∀ ch ∈ chunksOf b content, ch.length ≤ b := by
  unfold chunksOf
  by_cases hb : b = 0
  · simp [hb]
  · rw [if_neg hb]
    exact chunksOfFuel_length_le b (content.length + 1) content

theorem foldl_scan_no_match (p : List Char) (T : ShiftTable) (file : String) :
    ∀ (chunks : List (List Char)) (d : SearchResult),
      (∀ ch ∈ chunks, bmScanChunk ch p T = false) →
      chunks.foldl
        (fun acc ch => if bmScanChunk ch p T then resultAppend acc p file else acc) d = d := by
  intro chunks
  induction chunks with
  | nil => intro d _; rfl
  | cons ch rest ih =>
    intro d hall
    have hch : bmScanChunk ch p T = false := hall ch (by simp)
    simp only [List.foldl_cons, hch, Bool.false_eq_true, if_false]
    exact ih d (fun c hc => hall c (by simp [hc]))

/-- C9: when the pattern is longer than the buffer size, every chunk read is
shorter than the pattern, the scan loop body never runs, and `bm_search`
reports no match (the keyword is absent from the result) without raising any
error — the precondition `len(pattern) <= buffer_size` is never checked. -/
theorem long_pattern_silent_miss (content p : List Char) (b : Nat) (file : String)
    (h : b < p.length) :
    bm_search (fun _ => some content) file [p] b = some [] := by
  have hne : p ≠ [] := by
    intro hh
    rw [hh] at h
    simp at h
  obtain ⟨T, hT⟩ := Option.isSome_iff_exists.mp ((build_shift_table_isSome p).mpr hne)
  show (some content).bind (fun content => bm_searchGo content b file [p] []) = some []
  rw [Option.some_bind]
  have hpass : bmPatternPass [] content p T b file = [] := by
    unfold bmPatternPass
    apply foldl_scan_no_match
    intro ch hch
    have hchl := chunksOf_length_le b content ch hch
    have hcond : ¬ (p.length ≤ ch.length) := by omega
    show bmLoop ch p T (ch.length + 1) 0 = false
    simp [bmLoop, hcond]
  simp only [bm_searchGo, hT, hpass]

/-- Witness for C9: pattern "ab" with buffer size 1; the pattern does occur
in the file content, yet the result is empty and no failure is reported. -/
theorem long_pattern_silent_miss_witness :
    List.IsInfix ['a', 'b'] ['a', 'b'] ∧
    bm_search (fun _ => some ['a', 'b']) "f" [['a', 'b']] 1 = some [] := by
  refine ⟨⟨[], [], by simp⟩, ?_⟩
  exact long_pattern_silent_miss ['a', 'b'] ['a', 'b'] 1 "f" (by decide)

theorem bm_searchGo_entry_bound (content : List Char) (patterns : List (List Char))
    (p : List Char) (b : Nat) (file : String) (d : SearchResult)
    (hnd : patterns.Nodup) (hp : p ∈ patterns)
    (h : bm_searchGo content b file patterns [] = some d) :
    (∀ l, dictFind? d p = some l → l.length ≤ (chunksOf b content).length) ∧
    (∀ q l, dictFind? d q = some l → ∀ x ∈ l, x = file) := by
  constructor
  · intro l hl
    obtain ⟨T, hT, he, _⟩ := bm_searchGo_find_mem content b file patterns [] d p hnd hp h
    rw [hl] at he
    simp only [Option.getD_some, dictFind?, Option.getD_none, List.nil_append] at he
    rw [he, List.length_replicate]
    exact List.length_filter_le _ _
  · intro q l hq x hx
    refine bm_searchGo_values content b file patterns [] d ?_ h q l hq x hx
    intro q' l' h'
    simp [dictFind?] at h'

/-- C10: in `bm_search`'s result, each chunk read from the file contributes at
most one appended entry per pattern (the scan of a chunk stops at its first
match), so a keyword's list has at most one entry per chunk, and every value
stored anywhere in the result is the file's identifier string. -/
theorem bm_search_per_chunk_invariant (content : List Char) (patterns : List (List Char))
    (p : List Char) (b : Nat) (file : String) (d : SearchResult)
    (hnd : patterns.Nodup) (hp : p ∈ patterns)
    (h : bm_searchGo content b file patterns [] = some d) :
    (∀ l, dictFind? d p = some l → l.length ≤ (chunksOf b content).length) ∧
    (∀ q l, dictFind? d q = some l → ∀ x ∈ l, x = file) :=
  bm_searchGo_entry_bound content patterns p b file d hnd hp h

/-- Witness for C10 on a file whose content matches in both of its two
chunks: the keyword's list has exactly one entry per chunk, each equal to the
file identifier. -/
theorem bm_search_per_chunk_invariant_witness :
    (["f", "f"] : List String).length ≤ (chunksOf 2 ['a', 'b', 'a', 'b']).length ∧
    (∀ x ∈ (["f", "f"] : List String), x = "f") := by
  have h := bm_search_per_chunk_invariant ['a', 'b', 'a', 'b'] [['a', 'b']] ['a', 'b'] 2 "f"
      [(['a', 'b'], ["f", "f"])] (by decide) (by decide) (by decide)
  exact ⟨h.1 ["f", "f"] (by decide), fun x hx => h.2 ['a', 'b'] ["f", "f"] (by decide) x hx⟩

theorem chunksOfFuel_congr (b : Nat) (hb : b ≠ 0) :
    ∀ (fuel₁ fuel₂ : Nat) (content : List Char),
      content.length < fuel₁ → content.length < fuel₂ →
      chunksOfFuel b fuel₁ content = chunksOfFuel b fuel₂ content := by
  intro fuel₁
  induction fuel₁ with
  | zero => intro fuel₂ content h₁ _; omega
  | succ fuel ih =>
    intro fuel₂ content h₁ h₂
    cases fuel₂ with
    | zero => omega
    | succ fuel₂ =>
      by_cases hc : content = []
      · simp [chunksOfFuel, hc]
      · simp only [chunksOfFuel, hc, if_false]
        congr 1
        have hpos : 0 < content.length := List.length_pos.mpr hc
        have hlb : 0 < b := Nat.pos_of_ne_zero hb
        apply ih
        · simp only [List.length_drop]
          omega
        · simp only [List.length_drop]
          omega

/-- The chunk reader consumes the whole content in order: the concatenation of
the chunks is the original content (so the chunk decomposition loses no
characters; what the scan misses at the boundaries is the only loss). -/
theorem chunksOf_join (b : Nat) (hb : b ≠ 0) (content : List Char) :
    (chunksOf b content).flatten = content := by
  suffices h : ∀ (fuel : Nat) (l : List Char), l.length < fuel →
      (chunksOfFuel b fuel l).flatten = l by
    unfold chunksOf
    rw [if_neg hb]
    exact h (content.length + 1) content (by omega)
  intro fuel
  induction fuel with
  | zero => intro l h; omega
  | succ fuel ih =>
    intro l h
    by_cases hc : l = []
    · simp [chunksOfFuel, hc]
    · simp only [chunksOfFuel, hc, if_false, List.flatten_cons]
      have hpos : 0 < l.length := List.length_pos.mpr hc
      have hlb : 0 < b := Nat.pos_of_ne_zero hb
      rw [ih (l.drop b) (by simp only [List.length_drop]; omega)]
      exact List.take_append_drop b l

/-- C1 is refuted by the code: the chunk loop of `bm_search` re-reads the file
per pattern with no carry-over between chunks, so the occurrence of "ab" in
the file "aab" — which spans the boundary between the chunks "aa" and "b"
at buffer size 2 — is missed, while buffer size 3 (one chunk) finds it: the
two buffer sizes, both at least the pattern length, give different answers. -/
theorem chunked_scan_boundary_miss :
    List.IsInfix ['a', 'b'] ['a', 'a', 'b'] ∧
    bm_search (fun _ => some ['a', 'a', 'b']) "f" [['a', 'b']] 2 = some [] ∧
    bm_search (fun _ => some ['a', 'a', 'b']) "f" [['a', 'b']] 3
      = some [(['a', 'b'], ["f"])] := by
  refine ⟨⟨['a'], [], by simp⟩, by decide, by decide⟩

/-- C3 counterexample: a keyword that occurs in two different chunks of the
same file is appended twice for that one file — the `break` on a match only
leaves the inner `while` loop, not the loop over chunks, so the worker's
partial result holds the pair ("ab", "f") twice. -/
theorem worker_double_count_cex :
    search_keywords_in_files (fun _ => some ['a', 'b', 'a', 'b']) ["f"] [['a', 'b']] 2
      = [(['a', 'b'], ["f", "f"])] := by decide

/-- C3 (amended): for a file of the worker's slice, each (keyword, file) pair
contributes at most one entry to the worker's partial result **per chunk read
from that file** — not once per file: the entry count for the keyword is
bounded by the number of chunks, every entry being the file's identifier.
When the whole file fits in one chunk this gives the original at-most-once
bound. -/
theorem worker_per_chunk_bound (fs : String → Option (List Char)) (content : List Char)
    (keywords : List (List Char)) (p : List Char) (file : String) (b : Nat)
    (hc : fs file = some content) (hnd : keywords.Nodup) (hp : p ∈ keywords) :
    ∀ l, dictFind? (search_keywords_in_files fs [file] keywords b) p = some l →
      l.length ≤ (chunksOf b content).length ∧ ∀ x ∈ l, x = file := by
  intro l hl
  have hw : search_keywords_in_files fs [file] keywords b
      = match bm_search fs file keywords b with
        | none => ([] : SearchResult)
        | some r => mergeResult [] r := rfl
  rw [hw] at hl
  cases hbm : bm_search fs file keywords b with
  | none =>
    rw [hbm] at hl
    simp [dictFind?] at hl
  | some r =>
    rw [hbm] at hl
    have hr : bm_searchGo content b file keywords [] = some r := by
      unfold bm_search at hbm
      rw [hc] at hbm
      simpa using hbm
    have hkeys : (r.map Prod.fst).Nodup :=
      bm_searchGo_keys_nodup content b file keywords [] r (by simp) hr
    rw [dictFind?_mergeResult r [] hkeys p] at hl
    cases hrp : dictFind? r p with
    | none =>
      rw [hrp] at hl
      simp [dictFind?] at hl
    | some xs =>
      rw [hrp] at hl
      simp only [dictFind?, Option.getD_none, List.nil_append, Option.some_inj] at hl
      subst hl
      have hinv := bm_searchGo_entry_bound content keywords p b file r hnd hp hr
      exact ⟨hinv.1 xs hrp, fun x hx => hinv.2 p xs hrp x hx⟩

/-- Witness for the amended C3: a single-chunk file yields exactly one entry,
within the per-chunk bound. -/
theorem worker_per_chunk_bound_witness :
    (["f"] : List String).length ≤ (chunksOf 4 ['a', 'b']).length ∧
    ∀ x ∈ (["f"] : List String), x = "f" := by
  have h := worker_per_chunk_bound (fun _ => some ['a', 'b']) ['a', 'b'] [['a', 'b']]
      ['a', 'b'] "f" 4 rfl (by decide) (by decide)
  exact h ["f"] (by decide)

/-- C6: a file that cannot be opened or read contributes nothing to the
worker's result: the per-file `try/except` skips it and the scan of every
other file of the slice is unaffected, the worker still producing its
accumulated partial result (the model of the worker is a total function, so
no failure propagates out of it). -/
theorem worker_skips_unreadable (fs : String → Option (List Char)) (u : String)
    (hu : fs u = none) (xs ys : List String) (keywords : List (List Char)) (b : Nat) :
    search_keywords_in_files fs (xs ++ u :: ys) keywords b
      = search_keywords_in_files fs (xs ++ ys) keywords b := by
  have hbm : bm_search fs u keywords b = none := by
    unfold bm_search
    rw [hu]
    rfl
  unfold search_keywords_in_files
  rw [List.foldl_append, List.foldl_append, List.foldl_cons]
  simp only [hbm]

/-- Witness for C6: a missing file in the middle of the slice is skipped and
the remaining file is still processed. -/
theorem worker_skips_unreadable_witness :
    search_keywords_in_files (fun s => if s = "bad" then none else some ['a'])
        (["g"] ++ "bad" :: []) [['a']] 4
      = search_keywords_in_files (fun s => if s = "bad" then none else some ['a'])
        (["g"] ++ ([] : List String)) [['a']] 4 :=
  worker_skips_unreadable _ "bad" (by decide) ["g"] [] [['a']] 4

/-- C7 counterexample: with an empty file list and `num_processes = 2` the
coordinator's loop still creates and starts 2 worker processes (each with an
empty slice) — it does not skip spawning. -/
theorem workers_spawned_on_empty_cex : spawnedWorkers [] 2 ≠ 0 := by decide

/-- C7 (amended): for the empty file list the coordinator returns the empty
mapping, but it still spawns `worker_count` workers, one per slice, every
slice being empty. -/
theorem empty_files_empty_result (fs : String → Option (List Char))
    (keywords : List (List Char)) (n b : Nat) :
    multiprocessing_search fs [] keywords n b = [] ∧
    spawnedWorkers [] n = n ∧
    ∀ s ∈ slices [] n, s = ([] : List String) := by
  have hsl : ∀ s ∈ slices ([] : List String) n, s = [] := by
    intro s hs
    simp only [slices, List.mem_map] at hs
    obtain ⟨i, _, hi⟩ := hs
    simp only [List.drop_nil, List.take_nil] at hi
    exact hi.symm
  refine ⟨?_, ?_, hsl⟩
  · unfold multiprocessing_search
    have hfold : ∀ (L : List SearchResult) (acc : SearchResult),
        (∀ r ∈ L, r = []) → L.foldl mergeResult acc = acc := by
      intro L
      induction L with
      | nil => intro acc _; rfl
      | cons r rest ih =>
        intro acc hall
        have hr : r = [] := hall r (by simp)
        rw [List.foldl_cons, hr]
        exact ih acc (fun r' hr' => hall r' (by simp [hr']))
    apply hfold
    intro r hr
    simp only [List.mem_map] at hr
    obtain ⟨s, hs, hrs⟩ := hr
    rw [← hrs, hsl s hs]
    rfl
  · simp [spawnedWorkers, slices]

/-- C8 counterexample: the empty-pattern failure does surface out of the
matching pipeline (`bm_search` fails), but the worker's catch-all handler
absorbs it like any per-file error: the worker completes normally with an
empty result, so no hard failure reaches the top-level caller. -/
theorem empty_pattern_absorbed_cex :
    bm_search (fun _ => some ['a']) "f" [[]] 4 = none ∧
    search_keywords_in_files (fun _ => some ['a']) ["f"] [[]] 4 = [] := ⟨rfl, rfl⟩

/-- C8 (amended): shift-table construction fails exactly on the empty pattern
(every non-empty pattern succeeds), and this is the matching pipeline's only
error condition: `bm_search`'s scan succeeds if and only if every requested
pattern is non-empty. The failure is however absorbed by the worker's
catch-all `except`, which skips the file, so it never surfaces past the
worker as a hard failure. -/
theorem empty_pattern_only_pipeline_failure :
    (∀ p, (build_shift_table p).isSome ↔ p ≠ []) ∧
    (∀ (content : List Char) (b : Nat) (file : String) (patterns : List (List Char)),
      (bm_searchGo content b file patterns []).isSome ↔ ∀ p ∈ patterns, p ≠ []) ∧
    (∀ (fs : String → Option (List Char)) (files : List String)
        (keywords : List (List Char)) (b : Nat),
      [] ∈ keywords → search_keywords_in_files fs files keywords b = []) := by
  refine ⟨build_shift_table_isSome, ?_, ?_⟩
  · intro content b file patterns
    exact bm_searchGo_isSome content b file patterns []
  · intro fs files keywords b hmem
    have hstep : ∀ file, bm_search fs file keywords b = none := by
      intro file
      unfold bm_search
      cases hf : fs file with
      | none => rfl
      | some content =>
        rw [Option.some_bind]
        cases hgo : bm_searchGo content b file keywords [] with
        | none => rfl
        | some d =>
          have hs : (bm_searchGo content b file keywords []).isSome := by rw [hgo]; rfl
          rw [bm_searchGo_isSome] at hs
          exact absurd rfl (hs [] hmem)
    unfold search_keywords_in_files
    have hfold : ∀ (fl : List String) (acc : SearchResult),
        fl.foldl (fun results file =>
          match bm_search fs file keywords b with
          | none => results
          | some r => mergeResult results r) acc = acc := by
      intro fl
      induction fl with
      | nil => intro acc; rfl
      | cons f rest ih =>
        intro acc
        rw [List.foldl_cons]
        simp only [hstep f]
        exact ih acc
    exact hfold files []

/-- Witness for the amended C8: a worker given the empty keyword completes
normally with the empty result. -/
theorem empty_pattern_only_pipeline_failure_witness :
    search_keywords_in_files (fun _ => some ['b']) ["g"] [[]] 2 = [] :=
  empty_pattern_only_pipeline_failure.2.2 (fun _ => some ['b']) ["g"] [[]] 2 (by decide)

theorem flatten_range_take (l : List String) (cs : Nat) :
    ∀ m, ((List.range m).map (fun i => (l.drop (i * cs)).take cs)).flatten
      = l.take (m * cs) := by
  intro m
  induction m with
  | zero => simp
  | succ m ih =>
    rw [List.range_succ, List.map_append, List.flatten_append]
    simp only [List.map_cons, List.map_nil, List.flatten_cons, List.flatten_nil,
      List.append_nil]
    rw [ih, Nat.succ_mul, List.take_add]

/-- C5: for every file list and `worker_count >= 1` the coordinator's
partitioning yields exactly `worker_count` contiguous slices whose
concatenation is the whole file list — every file goes to exactly one
worker (slices beyond the data are empty). -/
theorem partition_covers_exactly (files : List String) (n : Nat) (h : 1 ≤ n) :
    (slices files n).length = n ∧ (slices files n).flatten = files := by
  refine ⟨by simp [slices], ?_⟩
  obtain ⟨m, rfl⟩ : ∃ m, n = m + 1 := ⟨n - 1, by omega⟩
  have hslices : slices files (m + 1)
      = (List.range m).map (fun i =>
            (files.drop (i * (files.length / (m + 1)))).take (files.length / (m + 1)))
        ++ [(files.drop (m * (files.length / (m + 1)))).take
              (files.length - m * (files.length / (m + 1)))] := by
    unfold slices
    rw [List.range_succ, List.map_append]
    congr 1
    · apply List.map_congr_left
      intro i hi
      have him : i < m := List.mem_range.mp hi
      have hne : i ≠ (m + 1) - 1 := by omega
      simp only [hne, ne_eq, not_false_iff, if_true]
      have harith : ∀ cs : Nat, (i + 1) * cs - i * cs = cs := by
        intro cs
        rw [Nat.succ_mul]
        omega
      rw [harith]
    · simp only [List.map_cons, List.map_nil]
      have hne : ¬ (m ≠ (m + 1) - 1) := by omega
      simp only [hne, if_false]
  rw [hslices, List.flatten_append]
  simp only [List.flatten_cons, List.flatten_nil, List.append_nil]
  rw [flatten_range_take files (files.length / (m + 1)) m]
  have hlen : (files.drop (m * (files.length / (m + 1)))).length
      = files.length - m * (files.length / (m + 1)) := List.length_drop _ _
  rw [← hlen, List.take_length, List.take_append_drop]

/-- Witness for C5 with three files and two workers: slices ["a"] and
["b", "c"]. -/
theorem partition_covers_exactly_witness :
    (slices ["a", "b", "c"] 2).length = 2 ∧
    (slices ["a", "b", "c"] 2).flatten = ["a", "b", "c"] :=
  partition_covers_exactly ["a", "b", "c"] 2 (by decide)
